import Mathlib

/-!
Shallow embedding of the text-to-LaTeX conversion engine of latex.go
(`LaTeXConverter`: `escapeSpecialChars`, `isMathExpression`, `isInlineMath`,
`processMathExpressions`, `ConvertToLatex`).

Strings are modeled as `List Char` (a Lean `Char` is a Unicode scalar value,
matching a Go rune).  The Go code iterates over two *unordered* maps
(`specialChars` in `escapeSpecialChars`, `mathFunctions` in
`processMathExpressions`); Go randomizes map iteration order, so those
functions are parameterized here by the iteration order, an arbitrary
permutation of the rule table.  `specialChars` and `mathFunctions` below list
the entries in the order they appear in the Go source literal.

Go regexps (RE2 syntax, Perl leftmost-first matching semantics) are embedded
as bespoke executable matchers/replacers, one per pattern, faithful to the
pattern's matching and `ReplaceAllString` semantics, including greedy
backtracking and scanning resumption after each non-overlapping match.
-/

-- ## Character classes

-- Go `unicode.IsSpace`: the Unicode White_Space property, used by
-- `strings.TrimSpace` and the character-ratio loop of `isMathExpression`.
def goIsSpace (c : Char) : Bool :=
  let n := c.toNat
  n == 9 || n == 10 || n == 11 || n == 12 || n == 13 || n == 32 ||
  n == 0x85 || n == 0xA0 || n == 0x1680 ||
  (decide (0x2000 ≤ n) && decide (n ≤ 0x200A)) ||
  n == 0x2028 || n == 0x2029 || n == 0x202F || n == 0x205F || n == 0x3000

-- Go regexp `\s` (ASCII only): [\t\n\f\r ].
def regexSpace (c : Char) : Bool :=
  c == '\t' || c == '\n' || c.toNat == 12 || c == '\r' || c == ' '

-- Go regexp `\w` (ASCII only): [0-9A-Za-z_].
def isWordChar (c : Char) : Bool :=
  c.isAlpha || c.isDigit || c == '_'

def lbrace : Char := Char.ofNat 0x7b

def rbrace : Char := Char.ofNat 0x7d

-- Go `strings.TrimSpace`.
def trimSpace (s : List Char) : List Char :=
  ((s.dropWhile goIsSpace).reverse.dropWhile goIsSpace).reverse

-- Go `strings.Split(text, "\n")`.
def splitNL : List Char → List (List Char)
  | [] => [[]]
  | c :: rest =>
    if c = '\n' then [] :: splitNL rest
    else
      match splitNL rest with
      | [] => [[c]]
      | g :: gs => (c :: g) :: gs

-- Generic substring test, used only to state properties about outputs.
def anySuffix (f : List Char → Bool) : List Char → Bool
  | [] => f []
  | c :: rest => f (c :: rest) || anySuffix f rest

def containsSub (pat s : List Char) : Bool :=
  anySuffix (fun t => t.take pat.length == pat) s

-- ## Character Escaper (escapeSpecialChars)

-- The `specialChars` map of `NewLaTeXConverter`, listed in source order.
def specialChars : List (Char × List Char) :=
  [ ('&', "\\&".toList),
    ('%', "\\%".toList),
    ('$', "\\$".toList),
    ('#', "\\#".toList),
    ('_', "\\_".toList),
    (lbrace, "\\\x7b".toList),
    (rbrace, "\\\x7d".toList),
    ('~', "\\textasciitilde\x7b\x7d".toList),
    ('^', "\\textasciicircum\x7b\x7d".toList),
    ('\\', "\\textbackslash\x7b\x7d".toList) ]

-- Another permutation of the same map: backslash and brace rules first.
def specialCharsBackslashFirst : List (Char × List Char) :=
  [ ('\\', "\\textbackslash\x7b\x7d".toList),
    (lbrace, "\\\x7b".toList),
    (rbrace, "\\\x7d".toList),
    ('&', "\\&".toList),
    ('%', "\\%".toList),
    ('$', "\\$".toList),
    ('#', "\\#".toList),
    ('_', "\\_".toList),
    ('~', "\\textasciitilde\x7b\x7d".toList),
    ('^', "\\textasciicircum\x7b\x7d".toList) ]

-- Go `strings.ReplaceAll(s, string(c), r)` for a single-character pattern.
def replaceChar (c : Char) (r : List Char) : List Char → List Char
  | [] => []
  | a :: t => (if a = c then r else [a]) ++ replaceChar c r t

-- `escapeSpecialChars` iterates the map in Go's (unspecified) order; the
-- order is the explicit parameter `order`, a permutation of `specialChars`.
def escapeSpecialChars (order : List (Char × List Char)) (text : List Char) : List Char :=
  order.foldl (fun acc p => replaceChar p.1 p.2 acc) text

-- ## Line Classifier (isMathExpression, isInlineMath)

-- The character set of the `strings.ContainsAny` test in `isMathExpression`.
def mathSymbolSet : List Char :=
  "=+-*/^()[]\x7b\x7d<>|±×÷∂∆∇∫∑∏√∞≈≠≤≥αβγδϵζηθικλμνξπρστυϕχψω".toList

-- Go `unicode.IsDigit` covers all of Unicode category Nd; only the ASCII
-- digits matter anywhere in this development, and the classifier branch this
-- feeds is value-irrelevant in every universally quantified theorem below.
def isMathLikeChar (c : Char) : Bool :=
  mathSymbolSet.contains c || c.isDigit

-- mathPatterns[0]: `[=+\-*/^()\[\]]`.
def pattern0 (s : List Char) : Bool :=
  s.any (fun c => "=+-*/^()[]".toList.contains c)

-- mathPatterns[1]: `\d+[+\-*/]\d+`.  A match exists exactly when some
-- digit, operator, digit triple occurs consecutively.
def pattern1 : List Char → Bool
  | a :: b :: c :: rest =>
    (a.isDigit && "+-*/".toList.contains b && c.isDigit) || pattern1 (b :: c :: rest)
  | _ => false

-- mathPatterns[2]: `[a-zA-Z]\s*=\s*\d+` (unanchored).
def headEqNum : List Char → Bool
  | [] => false
  | a :: r =>
    a.isAlpha &&
      (match r.dropWhile regexSpace with
       | [] => false
       | c :: r2 =>
         c == '=' &&
           (match r2.dropWhile regexSpace with
            | [] => false
            | d :: _ => d.isDigit))

def pattern2 (s : List Char) : Bool :=
  anySuffix headEqNum s

-- mathPatterns[3]: `[a-zA-Z]\([^)]+\)` (unanchored).
def headCall : List Char → Bool
  | a :: p :: b :: r2 => a.isAlpha && p == '(' && b != ')' && r2.contains ')'
  | _ => false

def pattern3 (s : List Char) : Bool :=
  anySuffix headCall s

-- mathPatterns[4]: `\\[a-zA-Z]+`.
def pattern4 : List Char → Bool
  | a :: b :: rest => (a == '\\' && b.isAlpha) || pattern4 (b :: rest)
  | _ => false

-- mathPatterns[5]: `\$\$`.
def pattern5 : List Char → Bool
  | a :: b :: rest => (a == '$' && b == '$') || pattern5 (b :: rest)
  | _ => false

-- Word-boundary matching for `\bname\b` where `name` is a word of letters.
def boundaryOk : Option Char → Bool
  | none => true
  | some c => !isWordChar c

def matchesWordAt (name s : List Char) : Bool :=
  s.take name.length == name &&
    (match s.drop name.length with
     | [] => true
     | c :: _ => !isWordChar c)

def hasWordTokenAux (name : List Char) : Option Char → List Char → Bool
  | _, [] => false
  | prev, c :: rest =>
    (boundaryOk prev && matchesWordAt name (c :: rest)) || hasWordTokenAux name (some c) rest

def funcNames : List (List Char) :=
  ["sin".toList, "cos".toList, "tan".toList, "log".toList, "ln".toList,
   "lim".toList, "sum".toList, "prod".toList, "int".toList]

-- mathPatterns[6]: `\b(sin|cos|tan|log|ln|lim|sum|prod|int)\b`.
def pattern6 (s : List Char) : Bool :=
  funcNames.any (fun n => hasWordTokenAux n none s)

-- The `mathPatterns` slice of `NewLaTeXConverter`, in source order.
def mathPatterns : List (List Char → Bool) :=
  [pattern0, pattern1, pattern2, pattern3, pattern4, pattern5, pattern6]

-- `isMathExpression`.  The Go ratio test is
-- `totalChars > 0 && float64(mathCharCount)/float64(totalChars) > 0.6`;
-- the float64 literal 0.6 rounds to a double just below 3/5 and the division
-- is correctly rounded, so for all counts below 2^50 the comparison is the
-- exact rational test 3 * totalChars < 5 * mathCharCount used here.
def totalChars (text : List Char) : Nat :=
  (text.filter (fun c => !goIsSpace c)).length

def mathCharCount (text : List Char) : Nat :=
  ((text.filter (fun c => !goIsSpace c)).filter isMathLikeChar).length

def isMathExpression (text : List Char) : Bool :=
  if text.contains '\\' then true
  else if 0 < totalChars text ∧ 3 * totalChars text < 5 * mathCharCount text then true
  else mathPatterns.any (fun p => p text)

-- inlinePatterns[0]: `^[a-zA-Z]\s*=\s*.+$`.  `dotPlusEnd` matches `\s*.+$`:
-- either the whole remainder is a nonempty newline-free `.+`, or one more
-- `\s` character is consumed first.
def dotPlusEnd : List Char → Bool
  | [] => false
  | c :: rest =>
    (c != '\n' && rest.all (fun d => d != '\n')) || (regexSpace c && dotPlusEnd rest)

def inline1 : List Char → Bool
  | [] => false
  | a :: r =>
    a.isAlpha &&
      (match r.dropWhile regexSpace with
       | [] => false
       | c :: r2 => c == '=' && dotPlusEnd r2)

-- inlinePatterns[1]: `^.+\^.+\s*=.+$`.  `dotPlusThen f` matches `.+` (one or
-- more newline-free characters, any split tried) followed by `f`;
-- `eqTailAt` matches `\s*=.+$`.
def dotPlusThen (f : List Char → Bool) : List Char → Bool
  | [] => false
  | c :: rest => c != '\n' && (f rest || dotPlusThen f rest)

def eqTailAt : List Char → Bool
  | [] => false
  | c :: rest =>
    (c == '=' && !rest.isEmpty && rest.all (fun d => d != '\n')) ||
      (regexSpace c && eqTailAt rest)

def caretTail : List Char → Bool
  | [] => false
  | c :: r2 => c == '^' && dotPlusThen eqTailAt r2

def inline2 (s : List Char) : Bool :=
  dotPlusThen caretTail s

-- inlinePatterns[2]: `^[xyz]\s*=\s*\d+$`.
def inline3 : List Char → Bool
  | [] => false
  | a :: r =>
    (a == 'x' || a == 'y' || a == 'z') &&
      (match r.dropWhile regexSpace with
       | [] => false
       | c :: r2 =>
         c == '=' &&
           (let r3 := r2.dropWhile regexSpace
            !r3.isEmpty && r3.all Char.isDigit))

def inlinePatterns : List (List Char → Bool) :=
  [inline1, inline2, inline3]

-- `isInlineMath`.
def isInlineMath (text : List Char) : Bool :=
  inlinePatterns.any (fun p => p text)

-- ## Math Rewriter (processMathExpressions)

-- The `mathFunctions` map, listed in source order.
def mathFunctions : List (List Char × List Char) :=
  [ ("sin".toList, "\\sin".toList),
    ("cos".toList, "\\cos".toList),
    ("tan".toList, "\\tan".toList),
    ("log".toList, "\\log".toList),
    ("ln".toList, "\\ln".toList),
    ("lim".toList, "\\lim".toList),
    ("sum".toList, "\\sum".toList),
    ("prod".toList, "\\prod".toList),
    ("int".toList, "\\int".toList) ]

-- `regexp.MustCompile("\\b" + funcName + "\\b").ReplaceAllString(result, latexCmd)`.
-- Scanning resumes after each match; the character preceding the scan
-- position (in the input) is carried to evaluate the left `\b`.
def replaceWordAllAux (name repl : List Char) : Nat → Option Char → List Char → List Char
  | 0, _, s => s
  | _ + 1, _, [] => []
  | fuel + 1, prev, c :: rest =>
    if boundaryOk prev && matchesWordAt name (c :: rest) then
      repl ++ replaceWordAllAux name repl fuel name.getLast? ((c :: rest).drop name.length)
    else c :: replaceWordAllAux name repl fuel (some c) rest

def replaceWordAll (name repl s : List Char) : List Char :=
  replaceWordAllAux name repl s.length none s

-- `fractionPattern`: `(\d+)/(\d+)` replaced by `\frac{$1}{$2}`.
def fractionAux : Nat → List Char → List Char
  | 0, s => s
  | _ + 1, [] => []
  | fuel + 1, c :: rest =>
    if c.isDigit then
      let d1 := (c :: rest).takeWhile Char.isDigit
      match (c :: rest).drop d1.length with
      | '/' :: r2 =>
        let d2 := r2.takeWhile Char.isDigit
        if d2.isEmpty then c :: fractionAux fuel rest
        else
          "\\frac\x7b".toList ++ d1 ++ "\x7d\x7b".toList ++ d2 ++ [rbrace] ++
            fractionAux fuel (r2.drop d2.length)
      | _ => c :: fractionAux fuel rest
    else c :: fractionAux fuel rest

def fractionReplace (s : List Char) : List Char :=
  fractionAux s.length s

-- `exponentPattern`: `(\w+)\^(\d+)` replaced by `$1^{$2}`.
def exponentAux : Nat → List Char → List Char
  | 0, s => s
  | _ + 1, [] => []
  | fuel + 1, c :: rest =>
    if isWordChar c then
      let w := (c :: rest).takeWhile isWordChar
      match (c :: rest).drop w.length with
      | '^' :: r2 =>
        let d := r2.takeWhile Char.isDigit
        if d.isEmpty then c :: exponentAux fuel rest
        else
          w ++ ('^' :: lbrace :: (d ++ [rbrace])) ++ exponentAux fuel (r2.drop d.length)
      | _ => c :: exponentAux fuel rest
    else c :: exponentAux fuel rest

def exponentReplace (s : List Char) : List Char :=
  exponentAux s.length s

-- `sqrtPattern`: `sqrt\(([^)]+)\)` replaced by `\sqrt{$1}`.
def sqrtAux : Nat → List Char → List Char
  | 0, s => s
  | _ + 1, [] => []
  | fuel + 1, c :: rest =>
    if (c :: rest).take 5 == "sqrt(".toList then
      let r := (c :: rest).drop 5
      let body := r.takeWhile (fun d => d != ')')
      if body.isEmpty then c :: sqrtAux fuel rest
      else
        match r.drop body.length with
        | ')' :: r2 => "\\sqrt\x7b".toList ++ body ++ [rbrace] ++ sqrtAux fuel r2
        | _ => c :: sqrtAux fuel rest
    else c :: sqrtAux fuel rest

def sqrtReplace (s : List Char) : List Char :=
  sqrtAux s.length s

-- Replacement template `\int_{$1}^{$2} $3`.
def intRepl (a b c : List Char) : List Char :=
  "\\int_\x7b".toList ++ a ++ "\x7d^\x7b".toList ++ b ++ ("\x7d ".toList ++ c)

-- `integralPattern`: `int_(\w+)\^(\w+)\s*(\w+)` replaced by `\int_{$1}^{$2} $3`.
-- Backtracking: if the run after `^` is not followed by `\s*` and a word
-- character, the second `\w+` gives up its last character to the third.
def integralAux : Nat → List Char → List Char
  | 0, s => s
  | _ + 1, [] => []
  | fuel + 1, c :: rest =>
    if (c :: rest).take 4 == "int_".toList then
      let r1 := (c :: rest).drop 4
      let w1 := r1.takeWhile isWordChar
      if w1.isEmpty then c :: integralAux fuel rest
      else
        match r1.drop w1.length with
        | '^' :: r2 =>
          let w2 := r2.takeWhile isWordChar
          if w2.isEmpty then c :: integralAux fuel rest
          else
            let afterRun := r2.drop w2.length
            let sp := afterRun.takeWhile regexSpace
            let w3 := (afterRun.drop sp.length).takeWhile isWordChar
            if !w3.isEmpty then
              intRepl w1 w2 w3 ++ integralAux fuel ((afterRun.drop sp.length).drop w3.length)
            else if 2 ≤ w2.length then
              intRepl w1 w2.dropLast (w2.drop (w2.length - 1)) ++ integralAux fuel afterRun
            else c :: integralAux fuel rest
        | _ => c :: integralAux fuel rest
    else c :: integralAux fuel rest

def integralReplace (s : List Char) : List Char :=
  integralAux s.length s

-- `processMathExpressions`: the function-name loop iterates the
-- `mathFunctions` map in Go's (unspecified) order, given here as `funcOrder`;
-- the remaining four rewrites are in fixed source order.
def processMathExpressions (funcOrder : List (List Char × List Char)) (text : List Char) :
    List Char :=
  integralReplace (sqrtReplace (exponentReplace (fractionReplace
    (funcOrder.foldl (fun acc p => replaceWordAll p.1 p.2 acc) text))))

-- ## Conversion Engine (ConvertToLatex)

-- `fmt.Sprintf("\\[ %s \\]", body)` and `fmt.Sprintf("\\( %s \\)", body)`.
def displayWrap (b : List Char) : List Char :=
  '\\' :: '[' :: ' ' :: (b ++ [' ', '\\', ']'])

def inlineWrap (b : List Char) : List Char :=
  '\\' :: '(' :: ' ' :: (b ++ [' ', '\\', ')'])

-- The per-line body of the `ConvertToLatex` loop; `none` models `continue`.
-- The Go code binds `line = TrimSpace(line)` and
-- `escapedLine = escapeSpecialChars(line)`; those bindings are inlined here.
def processLine (escOrder : List (Char × List Char))
    (funcOrder : List (List Char × List Char)) (line : List Char) : Option (List Char) :=
  if trimSpace line = [] then none
  else if isMathExpression (escapeSpecialChars escOrder (trimSpace line)) then
    some (displayWrap (processMathExpressions funcOrder
      (escapeSpecialChars escOrder (trimSpace line))))
  else if isInlineMath (escapeSpecialChars escOrder (trimSpace line)) then
    some (inlineWrap (processMathExpressions funcOrder
      (escapeSpecialChars escOrder (trimSpace line))))
  else some (escapeSpecialChars escOrder (trimSpace line))

-- `ConvertToLatex`.
def ConvertToLatex (escOrder : List (Char × List Char))
    (funcOrder : List (List Char × List Char)) (text : List Char) : List Char :=
  if text = [] then []
  else List.intercalate ['\n'] ((splitNL text).filterMap (processLine escOrder funcOrder))

-- ## Helper lemmas about lists

theorem mem_of_mem_dropWhile {p : Char → Bool} :
    ∀ {l : List Char} {c : Char}, c ∈ l.dropWhile p → c ∈ l := by
  intro l
  induction l with
  | nil => intro c h; simp at h
  | cons a t ih =>
    intro c h
    rw [List.dropWhile_cons] at h
    by_cases hp : p a = true
    · simp only [hp, if_true] at h
      exact List.mem_cons_of_mem _ (ih h)
    · simp only [hp] at h
      simpa using h

theorem mem_dropWhile_of_mem {p : Char → Bool} :
    ∀ {l : List Char} {c : Char}, c ∈ l → p c = false → c ∈ l.dropWhile p := by
  intro l
  induction l with
  | nil => intro c h _; simp at h
  | cons a t ih =>
    intro c h hp
    rw [List.dropWhile_cons]
    by_cases hpa : p a = true
    · simp only [hpa, if_true]
      rcases List.mem_cons.mp h with h1 | h1
      · subst h1; rw [hp] at hpa; cases hpa
      · exact ih h1 hp
    · simp only [hpa]
      simpa using h

theorem mem_trimSpace_of_mem {s : List Char} {c : Char}
    (h : c ∈ s) (hc : goIsSpace c = false) : c ∈ trimSpace s := by
  unfold trimSpace
  rw [List.mem_reverse]
  exact mem_dropWhile_of_mem (List.mem_reverse.mpr (mem_dropWhile_of_mem h hc)) hc

theorem trim_eq_nil_of_all_space {l : List Char} (h : l.all goIsSpace = true) :
    trimSpace l = [] := by
  have h1 : l.dropWhile goIsSpace = [] := by
    rw [List.dropWhile_eq_nil_iff]
    intro x hx
    exact List.all_eq_true.mp h x hx
  unfold trimSpace
  rw [h1]
  rfl

-- ## Lemmas about the Character Escaper

theorem replaceChar_of_not_mem {c : Char} {r : List Char} :
    ∀ {s : List Char}, c ∉ s → replaceChar c r s = s := by
  intro s
  induction s with
  | nil => intro _; rfl
  | cons a t ih =>
    intro h
    have ha : ¬a = c := fun he => h (he ▸ List.mem_cons_self a t)
    simp only [replaceChar, if_neg ha, List.singleton_append, List.cons.injEq, true_and]
    exact ih (fun hc => h (List.mem_cons_of_mem _ hc))

theorem mem_replaceChar_of_ne {d c : Char} {r : List Char} :
    ∀ {s : List Char}, d ∈ s → d ≠ c → d ∈ replaceChar c r s := by
  intro s
  induction s with
  | nil => intro h _; simp at h
  | cons a t ih =>
    intro h hne
    rcases List.mem_cons.mp h with h1 | h1
    · subst h1
      simp only [replaceChar, if_neg hne]
      exact List.mem_append.mpr (Or.inl (List.mem_singleton.mpr rfl))
    · exact List.mem_append.mpr (Or.inr (ih h1 hne))

theorem bs_mem_replaceChar_intro {c : Char} {r : List Char} :
    ∀ {s : List Char}, c ∈ s → '\\' ∈ r → '\\' ∈ replaceChar c r s := by
  intro s
  induction s with
  | nil => intro h _; simp at h
  | cons a t ih =>
    intro h hr
    rcases List.mem_cons.mp h with h1 | h1
    · subst h1
      simp only [replaceChar, if_pos rfl]
      exact List.mem_append.mpr (Or.inl hr)
    · exact List.mem_append.mpr (Or.inr (ih h1 hr))

theorem special_repl_bs : ∀ p ∈ specialChars, '\\' ∈ p.2 := by decide

theorem bs_mem_replaceChar_keep {p : Char × List Char} (hp : p ∈ specialChars)
    {s : List Char} (h : '\\' ∈ s) : '\\' ∈ replaceChar p.1 p.2 s := by
  by_cases hc : '\\' = p.1
  · exact bs_mem_replaceChar_intro (hc ▸ h) (special_repl_bs p hp)
  · exact mem_replaceChar_of_ne h hc

theorem bs_mem_escape_keep :
    ∀ (order : List (Char × List Char)), (∀ p ∈ order, p ∈ specialChars) →
      ∀ {s : List Char}, '\\' ∈ s → '\\' ∈ escapeSpecialChars order s
  | [], _, _, h => h
  | q :: rest, hsub, _, h =>
    bs_mem_escape_keep rest (fun p hp => hsub p (List.mem_cons_of_mem _ hp))
      (bs_mem_replaceChar_keep (hsub q (List.mem_cons_self _ _)) h)

theorem escape_has_bs :
    ∀ (order : List (Char × List Char)), (∀ p ∈ order, p ∈ specialChars) →
      ∀ (c : Char), (∃ r, (c, r) ∈ order) → ∀ {s : List Char}, c ∈ s →
        '\\' ∈ escapeSpecialChars order s
  | [], _, _, hex, _, _ => absurd hex.choose_spec (List.not_mem_nil _)
  | q :: rest, hsub, c, hex, s, hs => by
    by_cases hq : q.1 = c
    · have h1 : '\\' ∈ replaceChar q.1 q.2 s :=
        bs_mem_replaceChar_intro (hq ▸ hs)
          (special_repl_bs q (hsub q (List.mem_cons_self _ _)))
      exact bs_mem_escape_keep rest (fun p hp => hsub p (List.mem_cons_of_mem _ hp)) h1
    · obtain ⟨r, hr⟩ := hex
      have hc' : c ∈ replaceChar q.1 q.2 s :=
        mem_replaceChar_of_ne hs (fun he => hq he.symm)
      have hr' : (c, r) ∈ rest := by
        rcases List.mem_cons.mp hr with h1 | h1
        · exact absurd (congrArg Prod.fst h1.symm) hq
        · exact h1
      exact escape_has_bs rest (fun p hp => hsub p (List.mem_cons_of_mem _ hp)) c ⟨r, hr'⟩ hc'

theorem escape_no_special :
    ∀ (order : List (Char × List Char)) (s : List Char),
      (∀ p ∈ order, p.1 ∉ s) → escapeSpecialChars order s = s
  | [], _, _ => rfl
  | q :: rest, s, h => by
    have hq : replaceChar q.1 q.2 s = s :=
      replaceChar_of_not_mem (h q (List.mem_cons_self _ _))
    show escapeSpecialChars rest (replaceChar q.1 q.2 s) = s
    rw [hq]
    exact escape_no_special rest s (fun p hp => h p (List.mem_cons_of_mem _ hp))

/-- C9: escaping is the identity on strings containing none of the ten special
characters: for any iteration order of the `specialChars` map,
`escapeSpecialChars` returns such a string unchanged. -/
theorem escape_identity_no_special (order : List (Char × List Char))
    (hperm : order.Perm specialChars) (s : List Char)
    (h : ∀ c ∈ s, ∀ p ∈ specialChars, p.1 ≠ c) :
    escapeSpecialChars order s = s :=
  escape_no_special order s (fun p hp hmem => h p.1 hmem p (hperm.mem_iff.mp hp) rfl)

/-- Witness for C9: the special-character-free line "hello" is unchanged. -/
theorem escape_identity_no_special_witness :
    escapeSpecialChars specialChars "hello".toList = "hello".toList :=
  escape_identity_no_special specialChars (List.Perm.refl _) _ (by decide)

/-- C2: refuted on the code.  Iterating the `specialChars` map in the order
the Go source lists it, the line "&" escapes to "\textbackslash{}&", not to
its mapped replacement "\&": the backslash introduced by the `&` rule is
re-escaped by the later backslash rule. -/
theorem escapeLiteralOrder_reescapes_amp :
    escapeSpecialChars specialChars ['&'] = "\\textbackslash\x7b\x7d&".toList ∧
      escapeSpecialChars specialChars ['&'] ≠ "\\&".toList := by
  constructor
  · decide
  · decide

/-- C3: refuted on the code.  Two runs of `ConvertToLatex` on the input "&"
with two different iteration orders of the unordered `specialChars` map (both
are permutations of the same map) give different outputs, so the engine is
not deterministic across runs. -/
theorem convert_order_dependent :
    List.Perm specialCharsBackslashFirst specialChars ∧
      ConvertToLatex specialCharsBackslashFirst mathFunctions ['&'] ≠
        ConvertToLatex specialChars mathFunctions ['&'] := by
  constructor
  · decide
  · decide

-- ## Lemmas about the Line Classifier

theorem contains_of_mem {s : List Char} {c : Char} (h : c ∈ s) : s.contains c = true := by
  simpa using h

theorem displayWrap_take_two (b : List Char) : (displayWrap b).take 2 = ['\\', '['] := rfl

theorem isMath_of_bs {s : List Char} (h : '\\' ∈ s) : isMathExpression s = true := by
  unfold isMathExpression
  rw [if_pos (contains_of_mem h)]

theorem no_bs_of_isMath_false {s : List Char} (h : isMathExpression s = false) : '\\' ∉ s :=
  fun hm => Bool.noConfusion ((isMath_of_bs hm).symm.trans h)

theorem isMath_of_eq_mem {s : List Char} (h : '=' ∈ s) : isMathExpression s = true := by
  unfold isMathExpression
  split
  · rfl
  · split
    · rfl
    · exact List.any_eq_true.mpr
        ⟨pattern0, by simp [mathPatterns], List.any_eq_true.mpr ⟨'=', h, by decide⟩⟩

theorem eqTailAt_eq_mem : ∀ {s : List Char}, eqTailAt s = true → '=' ∈ s := by
  intro s
  induction s with
  | nil => intro h; simp [eqTailAt] at h
  | cons c rest ih =>
    intro h
    unfold eqTailAt at h
    simp only [Bool.or_eq_true, Bool.and_eq_true, beq_iff_eq] at h
    rcases h with h1 | h1
    · rw [h1.1.1]
      exact List.mem_cons_self _ _
    · exact List.mem_cons_of_mem _ (ih h1.2)

theorem dotPlusThen_eq_mem {f : List Char → Bool} (hf : ∀ r, f r = true → '=' ∈ r) :
    ∀ {s : List Char}, dotPlusThen f s = true → '=' ∈ s := by
  intro s
  induction s with
  | nil => intro h; simp [dotPlusThen] at h
  | cons c rest ih =>
    intro h
    unfold dotPlusThen at h
    simp only [Bool.and_eq_true, Bool.or_eq_true] at h
    rcases h.2 with h1 | h1
    · exact List.mem_cons_of_mem _ (hf rest h1)
    · exact List.mem_cons_of_mem _ (ih h1)

theorem caretTail_eq_mem : ∀ {s : List Char}, caretTail s = true → '=' ∈ s := by
  intro s
  match s with
  | [] => intro h; simp [caretTail] at h
  | c :: r2 =>
    intro h
    unfold caretTail at h
    simp only [Bool.and_eq_true, beq_iff_eq] at h
    exact List.mem_cons_of_mem _ (dotPlusThen_eq_mem (fun r hr => eqTailAt_eq_mem hr) h.2)

theorem inline1_eq_mem : ∀ {s : List Char}, inline1 s = true → '=' ∈ s := by
  intro s
  match s with
  | [] => intro h; simp [inline1] at h
  | a :: r =>
    intro h
    unfold inline1 at h
    simp only [Bool.and_eq_true] at h
    obtain ⟨-, h2⟩ := h
    rcases hd : r.dropWhile regexSpace with _ | ⟨c, r2⟩
    · rw [hd] at h2; simp at h2
    · rw [hd] at h2
      simp only [Bool.and_eq_true, beq_iff_eq] at h2
      have hmem : '=' ∈ r.dropWhile regexSpace := by
        rw [hd, h2.1]
        exact List.mem_cons_self _ _
      exact List.mem_cons_of_mem _ (mem_of_mem_dropWhile hmem)

theorem inline2_eq_mem {s : List Char} (h : inline2 s = true) : '=' ∈ s :=
  dotPlusThen_eq_mem (fun _ hr => caretTail_eq_mem hr) h

theorem inline3_eq_mem : ∀ {s : List Char}, inline3 s = true → '=' ∈ s := by
  intro s
  match s with
  | [] => intro h; simp [inline3] at h
  | a :: r =>
    intro h
    unfold inline3 at h
    simp only [Bool.and_eq_true] at h
    obtain ⟨-, h2⟩ := h
    rcases hd : r.dropWhile regexSpace with _ | ⟨c, r2⟩
    · rw [hd] at h2; simp at h2
    · rw [hd] at h2
      simp only [Bool.and_eq_true, beq_iff_eq] at h2
      have hmem : '=' ∈ r.dropWhile regexSpace := by
        rw [hd, h2.1]
        exact List.mem_cons_self _ _
      exact List.mem_cons_of_mem _ (mem_of_mem_dropWhile hmem)

theorem isInlineMath_eq_mem {s : List Char} (h : isInlineMath s = true) : '=' ∈ s := by
  unfold isInlineMath at h
  obtain ⟨p, hp, hps⟩ := List.any_eq_true.mp h
  simp only [inlinePatterns, List.mem_cons, List.not_mem_nil, or_false] at hp
  rcases hp with hp | hp | hp
  · exact inline1_eq_mem (hp ▸ hps)
  · exact inline2_eq_mem (hp ▸ hps)
  · exact inline3_eq_mem (hp ▸ hps)

-- ## Theorems about the Conversion Engine

/-- C5: a trimmed line containing any of the ten escape-table characters is
always emitted as DisplayMath (never Prose or InlineMath): every escape
replacement introduces a backslash, so the escaped line contains a backslash
and `isMathExpression` classifies it as math, for every iteration order of
the escape map. -/
theorem special_char_line_display (escOrder : List (Char × List Char))
    (hperm : escOrder.Perm specialChars)
    (funcOrder : List (List Char × List Char)) (line : List Char) (c : Char) (r : List Char)
    (hcr : (c, r) ∈ specialChars) (hc : c ∈ trimSpace line) :
    processLine escOrder funcOrder line =
      some (displayWrap (processMathExpressions funcOrder
        (escapeSpecialChars escOrder (trimSpace line)))) := by
  have hne : ¬trimSpace line = [] := by
    intro h
    rw [h] at hc
    cases hc
  have hsub : ∀ p ∈ escOrder, p ∈ specialChars := fun p hp => hperm.mem_iff.mp hp
  have hbs : '\\' ∈ escapeSpecialChars escOrder (trimSpace line) :=
    escape_has_bs escOrder hsub c ⟨r, hperm.mem_iff.mpr hcr⟩ hc
  unfold processLine
  rw [if_neg hne, if_pos (isMath_of_bs hbs)]

/-- Witness for C5 at the line "&" with the source-order escape map. -/
theorem special_char_line_display_witness :
    processLine specialChars mathFunctions ['&'] =
      some (displayWrap (processMathExpressions mathFunctions
        (escapeSpecialChars specialChars (trimSpace ['&'])))) :=
  special_char_line_display specialChars (List.Perm.refl _) mathFunctions ['&'] '&'
    "\\&".toList (by decide) (by decide)

/-- C6: the engine never emits an InlineMath line: whatever the iteration
orders and the input line, an emitted line never starts with the inline
delimiter, because every line matched by an inline pattern contains an
equals sign and is therefore already caught by the display-math check. -/
theorem no_inline_output (escOrder : List (Char × List Char))
    (funcOrder : List (List Char × List Char)) (line out : List Char)
    (h : processLine escOrder funcOrder line = some out) :
    out.take 2 ≠ ['\\', '('] := by
  unfold processLine at h
  by_cases h1 : trimSpace line = []
  · rw [if_pos h1] at h; cases h
  · rw [if_neg h1] at h
    by_cases h2 : isMathExpression (escapeSpecialChars escOrder (trimSpace line)) = true
    · rw [if_pos h2] at h
      have hout := (Option.some.inj h).symm
      rw [hout, displayWrap_take_two]
      decide
    · rw [if_neg h2] at h
      by_cases h3 : isInlineMath (escapeSpecialChars escOrder (trimSpace line)) = true
      · exact absurd (isMath_of_eq_mem (isInlineMath_eq_mem h3)) h2
      · rw [if_neg h3] at h
        have hout := (Option.some.inj h).symm
        have h2f : isMathExpression (escapeSpecialChars escOrder (trimSpace line)) = false := by
          revert h2
          cases isMathExpression (escapeSpecialChars escOrder (trimSpace line)) <;> simp
        have hnob : '\\' ∉ out := hout ▸ no_bs_of_isMath_false h2f
        intro hc
        have hbs2 : '\\' ∈ out.take 2 := by
          rw [hc]
          exact List.mem_cons_self _ _
        exact hnob ((List.take_sublist 2 out).subset hbs2)

/-- Witness for C6: the display-math output line for "x = 1" does not start
with the inline delimiter. -/
theorem no_inline_output_witness :
    (("\\[ x = 1 \\]".toList).take 2 ≠ ['\\', '(']) :=
  no_inline_output specialChars mathFunctions "x = 1".toList "\\[ x = 1 \\]".toList (by decide)

/-- C7: the conversion engine is total: for every input string (any Unicode
characters, any length, any line structure) and any iteration orders of the
two rule maps, `ConvertToLatex` returns the newline-join of the per-line
results, emitting at most one output line per input line, with no failure
path. -/
theorem convert_total_structure (escOrder : List (Char × List Char))
    (funcOrder : List (List Char × List Char)) (text : List Char) :
    ConvertToLatex escOrder funcOrder text =
      List.intercalate ['\n'] ((splitNL text).filterMap (processLine escOrder funcOrder)) ∧
      ((splitNL text).filterMap (processLine escOrder funcOrder)).length ≤
        (splitNL text).length := by
  constructor
  · unfold ConvertToLatex
    by_cases h : text = []
    · subst h
      rfl
    · rw [if_neg h]
  · exact List.length_filterMap_le _ _

/-- C8: whitespace-only input produces empty output: if every line of the
input consists only of whitespace characters (this includes the empty
string), `ConvertToLatex` returns the empty string, each such line being
dropped before classification. -/
theorem whitespace_only_empty_output (escOrder : List (Char × List Char))
    (funcOrder : List (List Char × List Char)) (text : List Char)
    (h : ∀ l ∈ splitNL text, l.all goIsSpace = true) :
    ConvertToLatex escOrder funcOrder text = [] := by
  have hnone : ∀ l ∈ splitNL text, processLine escOrder funcOrder l = none := by
    intro l hl
    unfold processLine
    rw [if_pos (trim_eq_nil_of_all_space (h l hl))]
  unfold ConvertToLatex
  by_cases ht : text = []
  · rw [if_pos ht]
  · rw [if_neg ht, List.filterMap_eq_nil_iff.mpr hnone]
    rfl

/-- Witness for C8: a two-line input of spaces and tabs yields empty output. -/
theorem whitespace_only_empty_output_witness :
    ConvertToLatex specialChars mathFunctions "  \n\t ".toList = [] :=
  whitespace_only_empty_output specialChars mathFunctions "  \n\t ".toList (by decide)

theorem foldl_replaceWordAll_fix :
    ∀ (order : List (List Char × List Char)) (s : List Char),
      (∀ p ∈ order, replaceWordAll p.1 p.2 s = s) →
      order.foldl (fun acc p => replaceWordAll p.1 p.2 acc) s = s
  | [], _, _ => rfl
  | q :: rest, s, h => by
    have hq : replaceWordAll q.1 q.2 s = s := h q (List.mem_cons_self _ _)
    show List.foldl _ (replaceWordAll q.1 q.2 s) rest = s
    rw [hq]
    exact foldl_replaceWordAll_fix rest s (fun p hp => h p (List.mem_cons_of_mem _ hp))

/-- C10: the math rewriter turns "1/3" into the fraction form with numerator
1 and denominator 3, for every iteration order of the function-name map
(no function name matches "1/3", and the fraction rule fires). -/
theorem fraction_one_third_rewrite (funcOrder : List (List Char × List Char))
    (h : funcOrder.Perm mathFunctions) :
    processMathExpressions funcOrder "1/3".toList = "\\frac\x7b1\x7d\x7b3\x7d".toList := by
  have hfix : ∀ p ∈ mathFunctions, replaceWordAll p.1 p.2 "1/3".toList = "1/3".toList := by
    decide
  have hf : funcOrder.foldl (fun acc p => replaceWordAll p.1 p.2 acc) "1/3".toList =
      "1/3".toList :=
    foldl_replaceWordAll_fix funcOrder _ (fun p hp => hfix p (h.mem_iff.mp hp))
  unfold processMathExpressions
  rw [hf]
  decide

/-- Witness for C10 at the source-order function map. -/
theorem fraction_one_third_rewrite_witness :
    processMathExpressions mathFunctions "1/3".toList = "\\frac\x7b1\x7d\x7b3\x7d".toList :=
  fraction_one_third_rewrite mathFunctions (List.Perm.refl _)

/-- C1: refuted on the code.  For the input "E = mc^2" the emitted line is
display-wrapped, but the rewritten form does not contain the exponent
pattern: the caret is escaped to \textasciicircum\x7b\x7d before the math
rewriter runs (and, in the source-literal map order used here, its backslash
is then re-escaped), so the exponent rule never sees a caret and no
"c^\x7b2\x7d" appears in the output. -/
theorem caret_escaped_before_rewrite :
    ConvertToLatex specialChars mathFunctions "E = mc^2".toList =
      "\\[ E = mc\\textbackslash\x7b\x7dtextasciicircum\x7b\x7d2 \\]".toList ∧
      containsSub "c^\x7b2\x7d".toList
        (ConvertToLatex specialChars mathFunctions "E = mc^2".toList) = false := by
  constructor
  · decide
  · decide

/-- C4: refuted on the code.  For the input "int_0^1 x" the output is not the
bounded-integral form \int_\x7b0\x7d^\x7b1\x7d x: the underscore and caret
are escaped before the rewriter runs, so the bounded-integral rule never
matches; only the function-name rule fires (int becomes \int). -/
theorem integral_input_not_rewritten :
    ConvertToLatex specialChars mathFunctions "int_0^1 x".toList =
      "\\[ \\int\\textbackslash\x7b\x7d_0\\textbackslash\x7b\x7dtextasciicircum\x7b\x7d1 x \\]".toList ∧
      containsSub "\\int_\x7b0\x7d^\x7b1\x7d x".toList
        (ConvertToLatex specialChars mathFunctions "int_0^1 x".toList) = false := by
  constructor
  · decide
  · decide
